import Mathlib

/-!
Verification of the self-play tabular Q-learning tic-tac-toe agent
(`tic_tac_toe.py`) against its natural-language specification.

Modelling conventions:
* A board cell `" "`/`"X"`/`"O"` becomes `Cell.e` / `Cell.mark Mark.X` /
  `Cell.mark Mark.O`; a board (a Python list of 9 cells) becomes `List Cell`.
  Indexing `board[i]` is `cellAt`, which pads out-of-range reads with `Cell.e`;
  all boards produced by the program have length 9, where the two agree.
* The encoded state symbols `"P"`/`"E"`/`"_"` become `Sym.P`/`Sym.E`/`Sym.blank`.
* Python floats are modelled as rationals (`ℚ`): the claims concern the exact
  arithmetic formulas of the code, not rounding.
* The value table `self.q = defaultdict(dict)` becomes an insertion-ordered
  association list `QTable`.  `defaultdict` subscripting (which inserts an
  empty inner dict for a missing key) is `qEnsure` followed by `qRow`;
  `dict.get(k, 0.0)` is `rowGet`; `d[k] = v` is `rowSet` / `qSetRow`.
  Keys are `Option State` because `update` is called with `next_state = None`
  at terminal transitions.
* `random.random() < self.epsilon` and `random.choice(moves)` are modelled by
  an explicit oracle: a rational draw `rnd` compared against epsilon, and an
  arbitrary index `pick` reduced mod the length of `moves`.
-/

namespace TTT

inductive Mark : Type
| X : Mark
| O : Mark
deriving DecidableEq, Repr

inductive Cell : Type
| e : Cell
| mark : Mark → Cell
deriving DecidableEq, Repr

inductive Sym : Type
| P : Sym
| E : Sym
| blank : Sym
deriving DecidableEq, Repr

abbrev State := List Sym

abbrev Row := List (ℕ × ℚ)

abbrev Key := Option State

abbrev QTable := List (Key × Row)

/-- `WIN_LINES`: the 8 index triples (3 rows, 3 columns, 2 diagonals). -/
def WIN_LINES : List (ℕ × ℕ × ℕ) :=
  [(0, 1, 2), (3, 4, 5), (6, 7, 8),
   (0, 3, 6), (1, 4, 7), (2, 5, 8),
   (0, 4, 8), (2, 4, 6)]

/-- `board[i]`, total via an `Empty` default (boards in the program have
length 9, where this agrees with Python indexing). -/
def cellAt (board : List Cell) (i : ℕ) : Cell :=
  board.getD i Cell.e

/-- `empty_cells(board)`: `[i for i, v in enumerate(board) if v == " "]`,
rendered as a filter of the index range. -/
def empty_cells (board : List Cell) : List ℕ :=
  (List.range board.length).filter (fun i => decide (cellAt board i = Cell.e))

/-- `check_winner(board)`: first line whose three cells are equal and
non-blank; its first cell's mark, else `None`. -/
def check_winner (board : List Cell) : Option Cell :=
  match WIN_LINES.find? (fun l =>
      decide (cellAt board l.1 ≠ Cell.e ∧
        cellAt board l.1 = cellAt board l.2.1 ∧
        cellAt board l.2.1 = cellAt board l.2.2)) with
  | some l => some (cellAt board l.1)
  | none => none

/-- `is_full(board)`: `all(v != " " for v in board)`. -/
def is_full (board : List Cell) : Bool :=
  board.all (fun v => decide (v ≠ Cell.e))

/-- `dict.get(a, 0.0)` on an inner action→value dict. -/
def rowGet : Row → ℕ → ℚ
| [], _ => 0
| p :: ps, a => if p.1 = a then p.2 else rowGet ps a

/-- `values[a] = v` on an inner dict: replace in place, or append preserving
insertion order. -/
def rowSet : Row → ℕ → ℚ → Row
| [], a, v => [(a, v)]
| p :: ps, a, v => if p.1 = a then (a, v) :: ps else p :: rowSet ps a v

/-- `max(row.values())`, with `0.0` for an empty dict
(`max(next_values.values()) if next_values else 0.0`). -/
def rowMax : Row → ℚ
| [] => 0
| p :: ps => (ps.map Prod.snd).foldl max p.2

/-- Whether the outer dict has key `k`. -/
def qHasKey : QTable → Key → Bool
| [], _ => false
| p :: ps, k => decide (p.1 = k) || qHasKey ps k

/-- The inner dict stored under `k` (empty when absent). -/
def qRow : QTable → Key → Row
| [], _ => []
| p :: ps, k => if p.1 = k then p.2 else qRow ps k

/-- `defaultdict` subscripting `self.q[k]`: insert an empty inner dict when
the key is missing. -/
def qEnsure (q : QTable) (k : Key) : QTable :=
  if qHasKey q k then q else q ++ [(k, [])]

/-- Replace (or create) the inner dict stored under `k`. -/
def qSetRow : QTable → Key → Row → QTable
| [], k, r => [(k, r)]
| p :: ps, k, r => if p.1 = k then (k, r) :: ps else p :: qSetRow ps k r

structure Agent where
  q : QTable
  alpha : ℚ
  gamma : ℚ
  epsilon : ℚ
deriving DecidableEq, Repr

/-- `SelfPlayAgent(alpha=0.2, gamma=0.9, epsilon=0.2)` with an empty table. -/
def mkAgent : Agent :=
  { q := [], alpha := 1/5, gamma := 9/10, epsilon := 1/5 }

/-- `"O" if player == "X" else "X"`. -/
def otherMark (player : Mark) : Mark :=
  if player = Mark.X then Mark.O else Mark.X

/-- `encode_state(board, player)`: per cell `P` for the mover's mark, `E` for
the opponent's, `_` for blank. -/
def encode_state (board : List Cell) (player : Mark) : State :=
  board.map (fun v =>
    if v = Cell.mark player then Sym.P
    else if v = Cell.mark (otherMark player) then Sym.E
    else Sym.blank)

/-- `random.choice(moves)` with the oracle's pick reduced into range. -/
def randomChoice (moves : List ℕ) (pick : ℕ) : ℕ :=
  moves.getD (pick % moves.length) 0

/-- `max(moves, key=f)`: Python keeps the first maximum (a later element
replaces the current one only when strictly greater). -/
def maxBy (f : ℕ → ℚ) (b : ℕ) (l : List ℕ) : ℕ :=
  l.foldl (fun acc x => if f acc < f x then x else acc) b

/-- `choose_action(board, player, explore)`, with the random oracle made
explicit.  Returns `((action, state), table-after-call)`: the defaultdict
access `self.q[state]` in the exploit branch may insert an empty inner dict.
`max` on an empty `moves` raises `ValueError` in Python; that branch returns
a junk action and is unreachable whenever the board has an empty cell. -/
def choose_action (ag : Agent) (board : List Cell) (player : Mark)
    (explore : Bool) (rnd : ℚ) (pick : ℕ) : (ℕ × State) × QTable :=
  if explore && decide (rnd < ag.epsilon) then
    ((randomChoice (empty_cells board) pick, encode_state board player), ag.q)
  else
    match empty_cells board with
    | [] => ((0, encode_state board player),
        qEnsure ag.q (some (encode_state board player)))
    | m :: ms =>
        ((maxBy
            (rowGet (qRow (qEnsure ag.q (some (encode_state board player)))
              (some (encode_state board player))))
            m ms,
          encode_state board player),
          qEnsure ag.q (some (encode_state board player)))

/-- `update(state, action, reward, next_state, done)`.  Mirrors the source:
`values = self.q[state]` (defaultdict access), `old = values.get(action, 0.0)`,
terminal target `reward`, else `reward - gamma * next_best` where
`next_best = max(self.q[next_state].values())` defaulting to `0.0`, and
finally `values[action] = old + alpha * (target - old)`. -/
def update (ag : Agent) (s : State) (a : ℕ) (r : ℚ) (ns : Key) (done : Bool) :
    Agent :=
  let q1 := qEnsure ag.q (some s)
  let values := qRow q1 (some s)
  let old := rowGet values a
  if done then
    { ag with q := qSetRow q1 (some s) (rowSet values a (old + ag.alpha * (r - old))) }
  else
    let q2 := qEnsure q1 ns
    let target := r - ag.gamma * rowMax (qRow q2 ns)
    { ag with q := qSetRow q2 (some s) (rowSet values a (old + ag.alpha * (target - old))) }

/-! ### Association-list lemmas -/

theorem qRow_append_empty (q : QTable) (k k' : Key) :
    qRow (q ++ [(k, [])]) k' = qRow q k' := by
  induction q with
  | nil =>
      by_cases h : k = k' <;> simp [qRow, h]
  | cons p ps ih =>
      by_cases h : p.1 = k' <;> simp [qRow, h, ih]

theorem qRow_qEnsure (q : QTable) (k k' : Key) :
    qRow (qEnsure q k) k' = qRow q k' := by
  unfold qEnsure
  split
  · rfl
  · exact qRow_append_empty q k k'

theorem qRow_qSetRow_self (q : QTable) (k : Key) (r : Row) :
    qRow (qSetRow q k r) k = r := by
  induction q with
  | nil => simp [qSetRow, qRow]
  | cons p ps ih =>
      by_cases h : p.1 = k <;> simp [qSetRow, qRow, h, ih]

theorem rowGet_rowSet_self (row : Row) (a : ℕ) (v : ℚ) :
    rowGet (rowSet row a v) a = v := by
  induction row with
  | nil => simp [rowSet, rowGet]
  | cons p ps ih =>
      by_cases h : p.1 = a <;> simp [rowSet, rowGet, h, ih]

/-- C1: For every state, action, reward, nextState and done flag, `update`
writes `table[state][action] := old + alpha * (target - old)` where `old` is
the prior entry defaulting to `0.0`, `target = reward` when `done`, and
`target = reward - gamma * (max of the values stored under nextState,
defaulting to 0.0 when none are stored)` otherwise. -/
theorem update_td_formula (ag : Agent) (s : State) (a : ℕ) (r : ℚ)
    (ns : Key) (done : Bool) :
    rowGet (qRow (update ag s a r ns done).q (some s)) a =
      rowGet (qRow ag.q (some s)) a +
        ag.alpha *
          ((if done then r else r - ag.gamma * rowMax (qRow ag.q ns)) -
            rowGet (qRow ag.q (some s)) a) := by
  unfold update
  cases done with
  | true =>
      simp [qRow_qSetRow_self, rowGet_rowSet_self, qRow_qEnsure]
  | false =>
      simp [qRow_qSetRow_self, rowGet_rowSet_self, qRow_qEnsure]

/-! ### Greedy selection (`max(moves, key=...)`) -/

theorem maxBy_mem_le (f : ℕ → ℚ) (l : List ℕ) : ∀ b : ℕ,
    maxBy f b l ∈ b :: l ∧ ∀ y ∈ b :: l, f y ≤ f (maxBy f b l) := by
  induction l with
  | nil =>
      intro b
      refine ⟨List.mem_cons_self b [], ?_⟩
      intro y hy
      rcases List.mem_cons.mp hy with h | h
      · subst h; exact le_refl _
      · exact absurd h (List.not_mem_nil y)
  | cons x xs ih =>
      intro b
      by_cases hbx : f b < f x
      · have e : maxBy f b (x :: xs) = maxBy f x xs := by simp [maxBy, hbx]
        obtain ⟨h1, h2⟩ := ih x
        rw [e]
        constructor
        · exact List.mem_cons_of_mem b h1
        · intro y hy
          rcases List.mem_cons.mp hy with h | h
          · subst h
            exact le_of_lt (lt_of_lt_of_le hbx (h2 x (List.mem_cons_self x xs)))
          · exact h2 y h
      · have e : maxBy f b (x :: xs) = maxBy f b xs := by simp [maxBy, hbx]
        obtain ⟨h1, h2⟩ := ih b
        rw [e]
        constructor
        · rcases List.mem_cons.mp h1 with h | h
          · rw [h]; exact List.mem_cons_self b _
          · exact List.mem_cons_of_mem b (List.mem_cons_of_mem x h)
        · intro y hy
          rcases List.mem_cons.mp hy with h | h
          · subst h; exact h2 y (List.mem_cons_self y xs)
          · rcases List.mem_cons.mp h with h' | h'
            · subst h'
              exact le_trans (not_lt.mp hbx) (h2 b (List.mem_cons_self b xs))
            · exact h2 y (List.mem_cons_of_mem b h')

theorem maxBy_first (f : ℕ → ℚ) (l : List ℕ) : ∀ b : ℕ,
    (∀ y ∈ l, b < y) → List.Pairwise (· < ·) l →
    ∀ y ∈ b :: l, y < maxBy f b l → f y < f (maxBy f b l) := by
  induction l with
  | nil =>
      intro b _ _ y hy hlt
      rcases List.mem_cons.mp hy with h | h
      · subst h; exact absurd hlt (lt_irrefl _)
      · exact absurd h (List.not_mem_nil y)
  | cons x xs ih =>
      intro b hb hp y hy hlt
      have hxxs : ∀ z ∈ xs, x < z := fun z hz => (List.pairwise_cons.mp hp).1 z hz
      have hp' := (List.pairwise_cons.mp hp).2
      by_cases hbx : f b < f x
      · have e : maxBy f b (x :: xs) = maxBy f x xs := by simp [maxBy, hbx]
        rw [e] at hlt ⊢
        rcases List.mem_cons.mp hy with h | h
        · subst h
          exact lt_of_lt_of_le hbx ((maxBy_mem_le f xs x).2 x (List.mem_cons_self x xs))
        · exact ih x hxxs hp' y h hlt
      · have e : maxBy f b (x :: xs) = maxBy f b xs := by simp [maxBy, hbx]
        rw [e] at hlt ⊢
        have hbxs : ∀ z ∈ xs, b < z :=
          fun z hz => lt_trans (hb x (List.mem_cons_self x xs)) (hxxs z hz)
        rcases List.mem_cons.mp hy with h | h
        · rw [h] at hlt ⊢
          exact ih b hbxs hp' b (List.mem_cons_self b xs) hlt
        · rcases List.mem_cons.mp h with h' | h'
          · subst h'
            rcases List.mem_cons.mp (maxBy_mem_le f xs b).1 with hrb | hrxs
            · exfalso
              rw [hrb] at hlt
              exact absurd hlt (not_lt.mpr (le_of_lt (hb y (List.mem_cons_self y xs))))
            · have hbr : b < maxBy f b xs := hbxs _ hrxs
              exact lt_of_le_of_lt (not_lt.mp hbx)
                (ih b hbxs hp' b (List.mem_cons_self b xs) hbr)
          · exact ih b hbxs hp' y (List.mem_cons_of_mem b h') hlt

theorem maxBy_all_eq (f : ℕ → ℚ) (l : List ℕ) : ∀ b : ℕ,
    (∀ y ∈ l, f y = f b) → maxBy f b l = b := by
  induction l with
  | nil => intro b _; rfl
  | cons x xs ih =>
      intro b h
      have hx : f x = f b := h x (List.mem_cons_self x xs)
      have e : maxBy f b (x :: xs) = maxBy f b xs := by
        simp [maxBy, hx, lt_irrefl]
      rw [e]
      exact ih b (fun y hy => h y (List.mem_cons_of_mem x hy))

theorem mem_empty_cells {board : List Cell} {i : ℕ} :
    i ∈ empty_cells board ↔ i < board.length ∧ cellAt board i = Cell.e := by
  simp [empty_cells, List.mem_filter, List.mem_range]

theorem empty_cells_sorted (board : List Cell) :
    List.Pairwise (· < ·) (empty_cells board) :=
  List.Pairwise.sublist (List.filter_sublist _) (List.pairwise_lt_range _)

/-- C2: with `explore=False`, `choose_action` returns a currently-empty cell
maximizing the table's estimate for `(encode_state board player, move)` with
missing entries treated as `0.0`, ties broken by the first (lowest-index)
maximizing move; when every relevant entry is `0.0` it returns the
lowest-index empty cell. -/
theorem choose_action_greedy (ag : Agent) (board : List Cell) (player : Mark)
    (rnd : ℚ) (pick : ℕ) (h : empty_cells board ≠ []) :
    (choose_action ag board player false rnd pick).1.1 ∈ empty_cells board ∧
    (∀ m ∈ empty_cells board,
      rowGet (qRow ag.q (some (encode_state board player))) m ≤
        rowGet (qRow ag.q (some (encode_state board player)))
          ((choose_action ag board player false rnd pick).1.1)) ∧
    (∀ m ∈ empty_cells board,
      m < (choose_action ag board player false rnd pick).1.1 →
      rowGet (qRow ag.q (some (encode_state board player))) m <
        rowGet (qRow ag.q (some (encode_state board player)))
          ((choose_action ag board player false rnd pick).1.1)) ∧
    ((∀ m ∈ empty_cells board,
        rowGet (qRow ag.q (some (encode_state board player))) m = 0) →
      (choose_action ag board player false rnd pick).1.1 =
        (empty_cells board).headD 0) := by
  cases hm : empty_cells board with
  | nil => exact absurd hm h
  | cons m ms =>
      have e : (choose_action ag board player false rnd pick).1.1 =
          maxBy (rowGet (qRow ag.q (some (encode_state board player)))) m ms := by
        simp [choose_action, hm, qRow_qEnsure]
      have hsorted := empty_cells_sorted board
      rw [hm] at hsorted
      have hb : ∀ y ∈ ms, m < y :=
        fun y hy => (List.pairwise_cons.mp hsorted).1 y hy
      have hp := (List.pairwise_cons.mp hsorted).2
      rw [e]
      refine ⟨(maxBy_mem_le _ ms m).1, ?_, ?_, ?_⟩
      · exact (maxBy_mem_le _ ms m).2
      · exact maxBy_first _ ms m hb hp
      · intro h0
        refine (maxBy_all_eq _ ms m (fun y hy => ?_)).trans rfl
        rw [h0 y (List.mem_cons_of_mem m hy), h0 m (List.mem_cons_self m ms)]

theorem choose_action_greedy_witness :
    empty_cells (List.replicate 9 Cell.e) ≠ [] ∧
    (choose_action mkAgent (List.replicate 9 Cell.e) Mark.X false 0 0).1.1 =
      (empty_cells (List.replicate 9 Cell.e)).headD 0 :=
  ⟨by decide,
    (choose_action_greedy mkAgent (List.replicate 9 Cell.e) Mark.X 0 0
        (by decide)).2.2.2 (by decide)⟩

/-! ### Perspective swap of the state encoder -/

/-- Swap the mover's and the opponent's labels, fixing blanks. -/
def swapSym : Sym → Sym
| Sym.P => Sym.E
| Sym.E => Sym.P
| Sym.blank => Sym.blank

theorem encode_state_map_swap (board : List Cell) (A : Mark) :
    encode_state board (otherMark A) = (encode_state board A).map swapSym := by
  induction board with
  | nil => rfl
  | cons v t ih =>
      simp only [encode_state, List.map_cons] at ih ⊢
      rw [ih]
      congr 1
      cases A <;> cases v <;> first | rfl | (rename_i mrk; cases mrk <;> rfl)

theorem encode_state_blank_iff (board : List Cell) (A : Mark) (i : ℕ) :
    cellAt board i = Cell.e ↔
      (encode_state board A).getD i Sym.blank = Sym.blank := by
  induction board generalizing i with
  | nil => simp [cellAt, encode_state]
  | cons v t ih =>
      cases i with
      | zero =>
          simp only [cellAt, encode_state, List.map_cons, List.getD_cons_zero]
          cases A <;> cases v <;>
            first | decide | (rename_i mrk; cases mrk <;> decide)
      | succ n =>
          simpa [cellAt, encode_state, List.getD_cons_succ] using ih n

/-- C3: for the two distinct marks `A ≠ B`, `encode_state board B` is the
cellwise Self/Enemy swap of `encode_state board A`, and a cell is labelled
blank exactly when it is empty in the board. -/
theorem encode_state_perspective_swap (board : List Cell) (A B : Mark)
    (hAB : A ≠ B) :
    encode_state board B = (encode_state board A).map swapSym ∧
    ∀ i, cellAt board i = Cell.e ↔
      (encode_state board A).getD i Sym.blank = Sym.blank := by
  have hB : B = otherMark A := by
    cases A <;> cases B <;> first | (exact absurd rfl hAB) | decide
  refine ⟨?_, fun i => encode_state_blank_iff board A i⟩
  rw [hB]
  exact encode_state_map_swap board A

theorem encode_state_perspective_swap_witness :
    Mark.X ≠ Mark.O ∧
    (encode_state [Cell.mark Mark.X, Cell.e, Cell.mark Mark.O] Mark.O =
        (encode_state [Cell.mark Mark.X, Cell.e, Cell.mark Mark.O]
          Mark.X).map swapSym ∧
      ∀ i, cellAt [Cell.mark Mark.X, Cell.e, Cell.mark Mark.O] i = Cell.e ↔
        (encode_state [Cell.mark Mark.X, Cell.e, Cell.mark Mark.O]
          Mark.X).getD i Sym.blank = Sym.blank) :=
  ⟨by decide,
    encode_state_perspective_swap _ Mark.X Mark.O (by decide)⟩

/-! ### The table during `choose_action` (defaultdict side effect) -/

theorem qEnsure_cases (q : QTable) (k : Key) :
    qEnsure q k = q ∨ qEnsure q k = q ++ [(k, [])] := by
  unfold qEnsure
  split
  · exact Or.inl rfl
  · exact Or.inr rfl

theorem choose_action_table (ag : Agent) (board : List Cell) (player : Mark)
    (explore : Bool) (rnd : ℚ) (pick : ℕ) :
    (choose_action ag board player explore rnd pick).2 = ag.q ∨
    (choose_action ag board player explore rnd pick).2 =
      qEnsure ag.q (some (encode_state board player)) := by
  unfold choose_action
  split
  · exact Or.inl rfl
  · cases hm : empty_cells board with
    | nil => simp [hm]
    | cons m ms => simp [hm]

/-- C4 counterexample: on an empty table, `choose_action` with
`explore=False` inserts a new (empty) inner dict for the encoded state: the
`defaultdict` access `self.q[state]` is a write. -/
theorem choose_action_creates_key :
    (choose_action mkAgent (List.replicate 9 Cell.e) Mark.X false 0 0).2 ≠
      mkAgent.q := by decide

/-- C4 (amended): `choose_action` never changes any stored value — every
`(state, action)` lookup with default `0.0` is unchanged — but the
`defaultdict` access in the exploit branch may append one empty inner
mapping for the encoded state when that key is absent. -/
theorem choose_action_preserves_lookups (ag : Agent) (board : List Cell)
    (player : Mark) (explore : Bool) (rnd : ℚ) (pick : ℕ) (k : Key) (a : ℕ) :
    rowGet (qRow (choose_action ag board player explore rnd pick).2 k) a =
      rowGet (qRow ag.q k) a ∧
    ((choose_action ag board player explore rnd pick).2 = ag.q ∨
      (choose_action ag board player explore rnd pick).2 =
        ag.q ++ [(some (encode_state board player), [])]) := by
  rcases choose_action_table ag board player explore rnd pick with h | h
  · rw [h]
    exact ⟨rfl, Or.inl rfl⟩
  · rw [h]
    refine ⟨by rw [qRow_qEnsure], ?_⟩
    exact qEnsure_cases ag.q (some (encode_state board player))

/-! ### Winner detection -/

/-- A line is fully occupied by `c`. -/
def lineFilled (board : List Cell) (l : ℕ × ℕ × ℕ) (c : Cell) : Prop :=
  cellAt board l.1 = c ∧ cellAt board l.2.1 = c ∧ cellAt board l.2.2 = c

instance instDecLineFilled (board : List Cell) (l : ℕ × ℕ × ℕ) (c : Cell) :
    Decidable (lineFilled board l c) := by
  unfold lineFilled
  infer_instance

/-- `c` is a non-blank mark fully occupying some win line. -/
def wins (board : List Cell) (c : Cell) : Prop :=
  c ≠ Cell.e ∧ ∃ l ∈ WIN_LINES, lineFilled board l c

instance instDecWins (board : List Cell) (c : Cell) : Decidable (wins board c) := by
  unfold wins
  infer_instance

/-- A board (legal under one-mark-per-cell) on which two different win lines
are fully occupied by the two different marks. -/
def doubleBoard : List Cell :=
  [Cell.mark Mark.X, Cell.mark Mark.X, Cell.mark Mark.X,
   Cell.mark Mark.O, Cell.mark Mark.O, Cell.mark Mark.O,
   Cell.e, Cell.e, Cell.e]

/-- C5 counterexample: the one-mark-per-cell invariant (which every
`List Cell` board satisfies by construction) does not prevent two different
lines from being fully occupied by the two different marks, so `winner` has
two distinct candidate marks on `doubleBoard`. -/
theorem two_lines_two_marks :
    wins doubleBoard (Cell.mark Mark.X) ∧ wins doubleBoard (Cell.mark Mark.O) ∧
      Cell.mark Mark.X ≠ Cell.mark Mark.O := by decide

/-- C5 (amended): a single win line cannot be fully occupied by two
different marks simultaneously: the winning mark of any one line is
unique. -/
theorem line_winner_unique (board : List Cell) (l : ℕ × ℕ × ℕ)
    (_hl : l ∈ WIN_LINES) (c c' : Cell)
    (h1 : lineFilled board l c) (h2 : lineFilled board l c') : c = c' :=
  h1.1.symm.trans h2.1

theorem line_winner_unique_witness :
    ((0, 1, 2) : ℕ × ℕ × ℕ) ∈ WIN_LINES ∧
    lineFilled doubleBoard (0, 1, 2) (Cell.mark Mark.X) ∧
    Cell.mark Mark.X = Cell.mark Mark.X :=
  ⟨by decide, by decide,
    line_winner_unique doubleBoard (0, 1, 2) (by decide) _ _ (by decide)
      (by decide)⟩

/-- C7 counterexample: `check_winner` returns only the first winning line's
mark, so on `doubleBoard` the mark `O` fully occupies a line yet is not
returned — the per-mark "if and only if" fails. -/
theorem check_winner_misses_second_mark :
    wins doubleBoard (Cell.mark Mark.O) ∧
    check_winner doubleBoard ≠ some (Cell.mark Mark.O) := by decide

/-- C7 (amended): `check_winner` returns some mark `c` only if `c` is
non-blank and fully occupies some line, and it returns `none` exactly when
no line is fully occupied by one mark. -/
theorem check_winner_characterization (board : List Cell) :
    (∀ c, check_winner board = some c → wins board c) ∧
    (check_winner board = none ↔ ∀ c, ¬ wins board c) := by
  unfold check_winner
  cases hf : WIN_LINES.find? (fun l =>
      decide (cellAt board l.1 ≠ Cell.e ∧
        cellAt board l.1 = cellAt board l.2.1 ∧
        cellAt board l.2.1 = cellAt board l.2.2)) with
  | none =>
      constructor
      · intro c hc
        cases hc
      constructor
      · intro _ c hw
        rcases hw with ⟨hc, l, hl, h1, h2, h3⟩
        have hnone := List.find?_eq_none.mp hf l hl
        apply hnone
        have : cellAt board l.1 ≠ Cell.e ∧
            cellAt board l.1 = cellAt board l.2.1 ∧
            cellAt board l.2.1 = cellAt board l.2.2 := by
          refine ⟨by rw [h1]; exact hc, by rw [h1, h2], by rw [h2, h3]⟩
        exact decide_eq_true this
      · intro _
        rfl
  | some l =>
      have hfind := List.find?_some hf
      simp only [decide_eq_true_eq] at hfind
      have hprop : cellAt board l.1 ≠ Cell.e ∧
          cellAt board l.1 = cellAt board l.2.1 ∧
          cellAt board l.2.1 = cellAt board l.2.2 := hfind
      have hmem : l ∈ WIN_LINES := List.mem_of_find?_eq_some hf
      have hwins : wins board (cellAt board l.1) :=
        ⟨hprop.1, l, hmem, rfl, hprop.2.1.symm, (hprop.2.1.trans hprop.2.2).symm⟩
      constructor
      · intro c hc
        have hc' : cellAt board l.1 = c := by
          injection hc
        rw [← hc']
        exact hwins
      · constructor
        · intro h
          cases h
        · intro hall
          exact absurd hwins (hall (cellAt board l.1))

/-! ### Persistence

`save` writes `pickle.dump(dict(self.q), fh)`; `load` returns `False`
when the path does not exist, otherwise runs `pickle.load` and replaces
`self.q` with `defaultdict(dict, data)`.  The file system and pickle are
external to the program: the file is modelled as `none` when absent, and a
present file as `Except.ok` of the stored table value (a successful
deserialization) or `Except.error` (a malformed file, whose exception the
code does not catch). -/

/-- `save(path)`: the value written to the file is `dict(self.q)`. -/
def save (ag : Agent) : QTable := ag.q

/-- `load(path)`: propagates `Except.error` (an uncaught pickle exception),
and otherwise returns the updated agent and the boolean result. -/
def load (ag : Agent) (file : Option (Except String QTable)) :
    Except String (Agent × Bool) :=
  match file with
  | none => Except.ok (ag, false)
  | some (Except.error msg) => Except.error msg
  | some (Except.ok data) => Except.ok ({ ag with q := data }, true)

/-- C8: `save` then `load` into a fresh agent succeeds with `True` and
reproduces every `(state, action)` value, including the `0.0` default for
pairs that were absent at save time. -/
theorem save_load_roundtrip (ag fresh ag2 : Agent) (b : Bool)
    (h : load fresh (some (Except.ok (save ag))) = Except.ok (ag2, b)) :
    b = true ∧ ∀ k a, rowGet (qRow ag2.q k) a = rowGet (qRow ag.q k) a := by
  unfold load save at h
  simp only [Except.ok.injEq, Prod.mk.injEq] at h
  refine ⟨h.2.symm, fun k a => ?_⟩
  rw [← h.1]

/-- A sample trained agent used to instantiate `save_load_roundtrip`. -/
def agSample : Agent :=
  { q := [(some [Sym.P], [(0, 1/2), (4, 3/10)])],
    alpha := 1/5, gamma := 9/10, epsilon := 1/5 }

theorem save_load_roundtrip_witness :
    load mkAgent (some (Except.ok (save agSample))) =
      Except.ok ({ mkAgent with q := agSample.q }, true) ∧
    (true = true ∧ ∀ k a,
      rowGet (qRow ({ mkAgent with q := agSample.q } : Agent).q k) a =
        rowGet (qRow agSample.q k) a) :=
  ⟨rfl, save_load_roundtrip agSample mkAgent _ true rfl⟩

/-- C9: `load` returns `False` leaving the table unchanged when no file
exists, replaces the table and returns `True` when a file deserializes, and
propagates the deserialization error of a malformed file uncaught. -/
theorem load_cases (ag : Agent) (data : QTable) (msg : String) :
    load ag none = Except.ok (ag, false) ∧
    load ag (some (Except.ok data)) = Except.ok ({ ag with q := data }, true) ∧
    load ag (some (Except.error msg)) = Except.error msg :=
  ⟨rfl, rfl, rfl⟩

/-! ### The self-play training loop

`train` uses `random` twice per move (inside `choose_action`); the random
source is modelled as an oracle `Rng` indexed by a move counter threaded
through the run.  The Python inner loop is `while True`; it is embedded with
an explicit fuel, and each episode is run with fuel 9.  `completed = true`
records that the loop hit its `break` (reached a `done` transition) within
the fuel, so the fuel never truncates a run in which it is proved `true`. -/

/-- One recorded `(state, action, reward, next_state, done)` transition,
instrumented with the mover and the board before/after the move. -/
structure Transition where
  preBoard : List Cell
  mover : Mark
  state : State
  action : ℕ
  reward : ℚ
  nextState : Key
  done : Bool
  postBoard : List Cell
deriving DecidableEq, Repr

/-- Oracle for `random.random()` draws and `random.choice` picks, indexed by
a global move counter. -/
structure Rng where
  rnd : ℕ → ℚ
  pick : ℕ → ℕ

structure EpisodeResult where
  agent : Agent
  trace : List Transition
  completed : Bool
  ctr : ℕ

/-- The body of one episode of `train`, from a given board and mover:
choose an action (explore=True), place the mark, compute winner/done/reward,
update, and either break (`done`) or continue with the other player. -/
def playFrom (g : Rng) : Agent → List Cell → Mark → ℕ → ℕ → EpisodeResult
| ag, _, _, k, 0 => ⟨ag, [], false, k⟩
| ag, board, player, k, fuel + 1 =>
  let ca := choose_action ag board player true (g.rnd k) (g.pick k)
  let ag1 : Agent := { ag with q := ca.2 }
  let board1 := board.set ca.1.1 (Cell.mark player)
  let winner := check_winner board1
  let reward : ℚ := if winner = some (Cell.mark player) then 1 else 0
  if winner.isSome || is_full board1 then
    ⟨update ag1 ca.1.2 ca.1.1 reward none true,
     [⟨board, player, ca.1.2, ca.1.1, reward, none, true, board1⟩], true, k + 1⟩
  else
    let np := if player = Mark.X then Mark.O else Mark.X
    let ns := encode_state board1 np
    let rest := playFrom g (update ag1 ca.1.2 ca.1.1 reward (some ns) false)
      board1 np (k + 1) fuel
    ⟨rest.agent,
     ⟨board, player, ca.1.2, ca.1.1, reward, some ns, false, board1⟩ :: rest.trace,
     rest.completed, rest.ctr⟩

structure TrainResult where
  agent : Agent
  episodes : List (List Transition × Bool)
  ctr : ℕ

/-- `train(episodes)`: episode `n` starts from the empty board with mover
`X` when `n` is even, `O` when odd. -/
def train (g : Rng) (ag : Agent) (k : ℕ) : ℕ → TrainResult
| 0 => ⟨ag, [], k⟩
| n + 1 =>
  let prev := train g ag k n
  let ep := playFrom g prev.agent (List.replicate 9 Cell.e)
    (if n % 2 = 0 then Mark.X else Mark.O) prev.ctr 9
  ⟨ep.agent, prev.episodes ++ [(ep.trace, ep.completed)], ep.ctr⟩

theorem playFrom_trace_props (g : Rng) :
    ∀ (fuel : ℕ) (ag : Agent) (board : List Cell) (player : Mark) (k : ℕ),
    ∀ t ∈ (playFrom g ag board player k fuel).trace,
      t.done = ((check_winner t.postBoard).isSome || is_full t.postBoard) ∧
      t.reward =
        (if check_winner t.postBoard = some (Cell.mark t.mover) then (1 : ℚ)
          else 0) ∧
      t.postBoard = t.preBoard.set t.action (Cell.mark t.mover) := by
  intro fuel
  induction fuel with
  | zero =>
      intro ag board player k t ht
      exact absurd ht (List.not_mem_nil t)
  | succ fuel ih =>
      intro ag board player k t ht
      simp only [playFrom] at ht
      split at ht
      · rename_i hdone
        simp only [EpisodeResult.trace, List.mem_singleton] at ht
        subst ht
        exact ⟨hdone.symm, rfl, rfl⟩
      · rename_i hdone
        simp only [EpisodeResult.trace, List.mem_cons] at ht
        rcases ht with ht | ht
        · subst ht
          refine ⟨?_, rfl, rfl⟩
          simp only [Bool.not_eq_true] at hdone
          exact hdone.symm
        · exact ih _ _ _ _ t ht

theorem playFrom_head_mover (g : Rng) (ag : Agent) (board : List Cell)
    (player : Mark) (k fuel : ℕ) :
    ((playFrom g ag board player k (fuel + 1)).trace.head?).map
      Transition.mover = some player := by
  simp only [playFrom]
  split <;> rfl

/-! ### Legal actions and episode termination -/

theorem getD_mem : ∀ (l : List ℕ) (i : ℕ), i < l.length → l.getD i 0 ∈ l := by
  intro l
  induction l with
  | nil => intro i h; exact absurd h (Nat.not_lt_zero i)
  | cons x xs ih =>
      intro i h
      cases i with
      | zero => exact List.mem_cons_self x xs
      | succ n =>
          simp only [List.getD_cons_succ]
          exact List.mem_cons_of_mem x (ih n (Nat.lt_of_succ_lt_succ h))

theorem randomChoice_mem (moves : List ℕ) (pick : ℕ) (h : moves ≠ []) :
    randomChoice moves pick ∈ moves := by
  unfold randomChoice
  exact getD_mem moves _ (Nat.mod_lt pick (List.length_pos.mpr h))

theorem choose_action_mem (ag : Agent) (board : List Cell) (player : Mark)
    (explore : Bool) (rnd : ℚ) (pick : ℕ) (h : empty_cells board ≠ []) :
    (choose_action ag board player explore rnd pick).1.1 ∈
      empty_cells board := by
  unfold choose_action
  split
  · exact randomChoice_mem _ pick h
  · cases hm : empty_cells board with
    | nil => exact absurd hm h
    | cons m ms =>
        simp only
        exact (maxBy_mem_le _ ms m).1

theorem cellAt_set_self : ∀ (board : List Cell) (a : ℕ) (c : Cell),
    a < board.length → cellAt (board.set a c) a = c := by
  intro board
  induction board with
  | nil => intro a c h; exact absurd h (Nat.not_lt_zero a)
  | cons v t ih =>
      intro a c h
      cases a with
      | zero => rfl
      | succ n =>
          simp only [List.set_cons_succ, cellAt, List.getD_cons_succ]
          exact ih n c (Nat.lt_of_succ_lt_succ h)

theorem cellAt_set_ne : ∀ (board : List Cell) (a i : ℕ) (c : Cell),
    i ≠ a → cellAt (board.set a c) i = cellAt board i := by
  intro board
  induction board with
  | nil => intro a i c _; rfl
  | cons v t ih =>
      intro a i c hia
      cases a with
      | zero =>
          cases i with
          | zero => exact absurd rfl hia
          | succ n => rfl
      | succ m =>
          cases i with
          | zero => rfl
          | succ n =>
              simp only [List.set_cons_succ, cellAt, List.getD_cons_succ]
              exact ih m n c (fun e => hia (by rw [e]))

theorem countP_flip_lt : ∀ (l : List ℕ) (a : ℕ) (p pn : ℕ → Bool),
    l.Nodup → a ∈ l → p a = true → pn a = false →
    (∀ b ∈ l, b ≠ a → pn b = p b) → l.countP pn < l.countP p := by
  intro l
  induction l with
  | nil => intro a p pn _ ha _ _ _; exact absurd ha (List.not_mem_nil a)
  | cons x xs ih =>
      intro a p pn hnd ha hpa hpna hagree
      rcases List.mem_cons.mp ha with h | h
      · subst h
        have hax : a ∉ xs := (List.nodup_cons.mp hnd).1
        have hcong : xs.countP pn = xs.countP p :=
          List.countP_congr (fun b hb => by
            rw [hagree b (List.mem_cons_of_mem a hb) (fun e => hax (e ▸ hb))])
        rw [List.countP_cons_of_pos p xs hpa,
          List.countP_cons_of_neg pn xs (by simp [hpna]), hcong]
        exact Nat.lt_succ_self _
      · have hxa : x ≠ a := fun e => (List.nodup_cons.mp hnd).1 (e ▸ h)
        have hrec := ih a p pn (List.nodup_cons.mp hnd).2 h hpa hpna
          (fun b hb hba => hagree b (List.mem_cons_of_mem x hb) hba)
        have hpx : pn x = p x := hagree x (List.mem_cons_self x xs) hxa
        cases hp : p x with
        | false =>
            rw [List.countP_cons_of_neg p xs (by simp [hp]),
              List.countP_cons_of_neg pn xs (by simp [hpx, hp])]
            exact hrec
        | true =>
            rw [List.countP_cons_of_pos p xs hp,
              List.countP_cons_of_pos pn xs (by simp [hpx, hp])]
            exact Nat.succ_lt_succ hrec

theorem length_empty_cells_set (board : List Cell) (a : ℕ) (mk : Mark)
    (ha : a ∈ empty_cells board) :
    (empty_cells (board.set a (Cell.mark mk))).length <
      (empty_cells board).length := by
  obtain ⟨halt, hae⟩ := mem_empty_cells.mp ha
  unfold empty_cells
  rw [← List.countP_eq_length_filter, ← List.countP_eq_length_filter,
    List.length_set]
  refine countP_flip_lt (List.range board.length) a _ _
    (List.nodup_range board.length) (List.mem_range.mpr halt) ?_ ?_ ?_
  · simp [hae]
  · simp [cellAt_set_self board a (Cell.mark mk) halt]
  · intro b _ hba
    rw [cellAt_set_ne board a b (Cell.mark mk) hba]

theorem exists_index_of_mem : ∀ (board : List Cell) (v : Cell), v ∈ board →
    ∃ i, i < board.length ∧ cellAt board i = v := by
  intro board
  induction board with
  | nil => intro v hv; exact absurd hv (List.not_mem_nil v)
  | cons x t ih =>
      intro v hv
      rcases List.mem_cons.mp hv with h | h
      · exact ⟨0, Nat.succ_pos _, h.symm⟩
      · obtain ⟨i, hi, he⟩ := ih v h
        exact ⟨i + 1, Nat.succ_lt_succ hi,
          by simpa [cellAt, List.getD_cons_succ] using he⟩

theorem cellAt_mem : ∀ (board : List Cell) (i : ℕ), i < board.length →
    cellAt board i ∈ board := by
  intro board
  induction board with
  | nil => intro i h; exact absurd h (Nat.not_lt_zero i)
  | cons x t ih =>
      intro i h
      cases i with
      | zero => exact List.mem_cons_self x t
      | succ n =>
          simp only [cellAt, List.getD_cons_succ]
          exact List.mem_cons_of_mem x (ih n (Nat.lt_of_succ_lt_succ h))

theorem empty_cells_nil_iff (board : List Cell) :
    empty_cells board = [] ↔ is_full board = true := by
  unfold empty_cells is_full
  rw [List.filter_eq_nil_iff, List.all_eq_true]
  constructor
  · intro h v hv
    obtain ⟨i, hi, he⟩ := exists_index_of_mem board v hv
    have := h i (List.mem_range.mpr hi)
    simp only [he, decide_eq_true_eq] at this
    simpa using this
  · intro h i hi
    have := h (cellAt board i) (cellAt_mem board i (List.mem_range.mp hi))
    simpa using this

theorem playFrom_complete (g : Rng) :
    ∀ (fuel : ℕ) (ag : Agent) (board : List Cell) (player : Mark) (k : ℕ),
    empty_cells board ≠ [] → (empty_cells board).length ≤ fuel →
    (playFrom g ag board player k fuel).completed = true ∧
    (playFrom g ag board player k fuel).trace.length ≤ fuel ∧
    ∀ t ∈ (playFrom g ag board player k fuel).trace,
      t.action ∈ empty_cells t.preBoard := by
  intro fuel
  induction fuel with
  | zero =>
      intro ag board player k h1 h2
      exact absurd (List.length_eq_zero.mp (Nat.le_zero.mp h2)) h1
  | succ fuel ih =>
      intro ag board player k h1 h2
      have hmem : (choose_action ag board player true (g.rnd k)
          (g.pick k)).1.1 ∈ empty_cells board :=
        choose_action_mem ag board player true (g.rnd k) (g.pick k) h1
      have hlt := length_empty_cells_set board _ player hmem
      simp only [playFrom]
      split
      · refine ⟨rfl, by simp, ?_⟩
        intro t ht
        simp only [EpisodeResult.trace, List.mem_singleton] at ht
        subst ht
        exact hmem
      · rename_i hdone
        have hne : empty_cells (board.set (choose_action ag board player true
            (g.rnd k) (g.pick k)).1.1 (Cell.mark player)) ≠ [] := by
          intro he
          apply hdone
          rw [(empty_cells_nil_iff _).mp he, Bool.or_true]
        have hle : (empty_cells (board.set (choose_action ag board player true
            (g.rnd k) (g.pick k)).1.1 (Cell.mark player))).length ≤ fuel :=
          Nat.lt_succ_iff.mp (lt_of_lt_of_le hlt h2)
        obtain ⟨hc, hlen, hacts⟩ := ih _ _ _ (k + 1) hne hle
        refine ⟨hc, ?_, ?_⟩
        · simpa [EpisodeResult.trace] using Nat.succ_le_succ hlen
        · intro t ht
          simp only [EpisodeResult.trace, List.mem_cons] at ht
          rcases ht with ht | ht
          · subst ht
            exact hmem
          · exact hacts t ht

theorem playFrom_head_mover_of_pos (g : Rng) (ag : Agent) (board : List Cell)
    (player : Mark) (k fuel : ℕ) (h : fuel ≠ 0) :
    ((playFrom g ag board player k fuel).trace.head?).map
      Transition.mover = some player := by
  cases fuel with
  | zero => exact absurd rfl h
  | succ fuel => exact playFrom_head_mover g ag board player k fuel

theorem train_length (g : Rng) (ag : Agent) (k : ℕ) :
    ∀ n, (train g ag k n).episodes.length = n := by
  intro n
  induction n with
  | zero => rfl
  | succ n ih => simp [train, ih]

theorem getD_append_lt {α : Type} (d : α) :
    ∀ (l : List α) (x : α) (i : ℕ), i < l.length →
      (l ++ [x]).getD i d = l.getD i d := by
  intro l
  induction l with
  | nil => intro x i h; exact absurd h (Nat.not_lt_zero i)
  | cons y t ih =>
      intro x i h
      cases i with
      | zero => rfl
      | succ n =>
          simpa [List.getD_cons_succ] using ih x n (Nat.lt_of_succ_lt_succ h)

theorem getD_append_of_len {α : Type} (d : α) :
    ∀ (l : List α) (x : α) (i : ℕ), i = l.length →
      (l ++ [x]).getD i d = x := by
  intro l
  induction l with
  | nil => intro x i h; subst h; rfl
  | cons y t ih =>
      intro x i h
      subst h
      simp [List.getD_cons_succ, ih x t.length rfl]

/-- C6: in `train`, episode `i`'s first mover is `X` exactly when `i` is
even; and every recorded transition has `done = (winner exists or board
full)` and `reward = 1.0` exactly when the winner equals the mover (else
`0.0`, for draws and ordinary moves alike). -/
theorem train_transition_props (g : Rng) (ag : Agent) (k n i : ℕ)
    (hi : i < n) :
    ((((train g ag k n).episodes.getD i ([], false)).1.head?).map
        Transition.mover = some Mark.X ↔ i % 2 = 0) ∧
    ∀ t ∈ ((train g ag k n).episodes.getD i ([], false)).1,
      t.done = ((check_winner t.postBoard).isSome || is_full t.postBoard) ∧
      t.reward =
        (if check_winner t.postBoard = some (Cell.mark t.mover) then (1 : ℚ)
          else 0) := by
  induction n with
  | zero => exact absurd hi (Nat.not_lt_zero i)
  | succ n ih =>
      by_cases hin : i < n
      · have he : (train g ag k (n + 1)).episodes.getD i ([], false) =
            (train g ag k n).episodes.getD i ([], false) := by
          simp only [train]
          exact getD_append_lt _ _ _ i (by rw [train_length]; exact hin)
        rw [he]
        exact ih hin
      · have hieq : i = n :=
          Nat.le_antisymm (Nat.lt_succ_iff.mp hi) (Nat.le_of_not_lt hin)
        subst hieq
        have he : (train g ag k (i + 1)).episodes.getD i ([], false) =
            ((playFrom g (train g ag k i).agent (List.replicate 9 Cell.e)
                (if i % 2 = 0 then Mark.X else Mark.O)
                (train g ag k i).ctr 9).trace,
              (playFrom g (train g ag k i).agent (List.replicate 9 Cell.e)
                (if i % 2 = 0 then Mark.X else Mark.O)
                (train g ag k i).ctr 9).completed) := by
          simp only [train]
          exact getD_append_of_len _ _ _ i (train_length g ag k i).symm
        rw [he]
        constructor
        · rw [playFrom_head_mover_of_pos g _ _ _ _ 9 (by decide)]
          by_cases hpar : i % 2 = 0
          · simp [hpar]
          · simp [hpar]
        · intro t ht
          have := playFrom_trace_props g 9 (train g ag k i).agent
            (List.replicate 9 Cell.e)
            (if i % 2 = 0 then Mark.X else Mark.O) (train g ag k i).ctr t ht
          exact ⟨this.1, this.2.1⟩

/-- A fixed random oracle used only to instantiate the training theorems:
every draw is `1` (never below epsilon) and every pick is `0`. -/
def rngOne : Rng := { rnd := fun _ => 1, pick := fun _ => 0 }

theorem train_transition_props_witness :
    0 < 1 ∧
    (((((train rngOne mkAgent 0 1).episodes.getD 0 ([], false)).1.head?).map
        Transition.mover = some Mark.X ↔ 0 % 2 = 0) ∧
    ∀ t ∈ ((train rngOne mkAgent 0 1).episodes.getD 0 ([], false)).1,
      t.done = ((check_winner t.postBoard).isSome || is_full t.postBoard) ∧
      t.reward =
        (if check_winner t.postBoard = some (Cell.mark t.mover) then (1 : ℚ)
          else 0)) :=
  ⟨Nat.one_pos, train_transition_props rngOne mkAgent 0 1 0 Nat.one_pos⟩

/-- C10: every training episode terminates: its inner loop completes
(reaches a `done` transition) within at most 9 iterations, and every chosen
action is one of the empty cells of the board it was chosen against (so each
move strictly decreases the number of empty cells). -/
theorem train_episodes_terminate (g : Rng) (ag : Agent) (k n i : ℕ)
    (hi : i < n) :
    ((train g ag k n).episodes.getD i ([], false)).2 = true ∧
    ((train g ag k n).episodes.getD i ([], false)).1.length ≤ 9 ∧
    ∀ t ∈ ((train g ag k n).episodes.getD i ([], false)).1,
      t.action ∈ empty_cells t.preBoard := by
  induction n with
  | zero => exact absurd hi (Nat.not_lt_zero i)
  | succ n ih =>
      by_cases hin : i < n
      · have he : (train g ag k (n + 1)).episodes.getD i ([], false) =
            (train g ag k n).episodes.getD i ([], false) := by
          simp only [train]
          exact getD_append_lt _ _ _ i (by rw [train_length]; exact hin)
        rw [he]
        exact ih hin
      · have hieq : i = n :=
          Nat.le_antisymm (Nat.lt_succ_iff.mp hi) (Nat.le_of_not_lt hin)
        subst hieq
        have he : (train g ag k (i + 1)).episodes.getD i ([], false) =
            ((playFrom g (train g ag k i).agent (List.replicate 9 Cell.e)
                (if i % 2 = 0 then Mark.X else Mark.O)
                (train g ag k i).ctr 9).trace,
              (playFrom g (train g ag k i).agent (List.replicate 9 Cell.e)
                (if i % 2 = 0 then Mark.X else Mark.O)
                (train g ag k i).ctr 9).completed) := by
          simp only [train]
          exact getD_append_of_len _ _ _ i (train_length g ag k i).symm
        rw [he]
        obtain ⟨hc, hlen, hact⟩ := playFrom_complete g 9
          (train g ag k i).agent (List.replicate 9 Cell.e)
          (if i % 2 = 0 then Mark.X else Mark.O) (train g ag k i).ctr
          (by decide) (by decide)
        exact ⟨hc, hlen, hact⟩

theorem train_episodes_terminate_witness :
    0 < 1 ∧
    (((train rngOne mkAgent 0 1).episodes.getD 0 ([], false)).2 = true ∧
    ((train rngOne mkAgent 0 1).episodes.getD 0 ([], false)).1.length ≤ 9 ∧
    ∀ t ∈ ((train rngOne mkAgent 0 1).episodes.getD 0 ([], false)).1,
      t.action ∈ empty_cells t.preBoard) :=
  ⟨Nat.one_pos, train_episodes_terminate rngOne mkAgent 0 1 0 Nat.one_pos⟩

end TTT
